import Mathlib

/-!
Verification development for the goflyway SQL statement splitter.

The Go source (split.go and the goose-style block splitter) is shallowly
embedded over `List Char`: the `bufio.Reader` rune stream becomes a list of
characters consumed from the front, `ReadRune` failing with `io.EOF` becomes
the empty list, and the single-rune `UnreadRune`/peek discipline of the source
becomes pattern matching that inspects the head without consuming it.  Each
tokenizer routine returns the token (or text) it built, the remaining stream,
and a Boolean recording whether the routine returned together with an `io.EOF`
error (the caller `Split` drops the token in that case, mirroring the source).

Unicode character classes (`unicode.IsLetter`, `unicode.IsDigit`,
`unicode.IsSpace`, `strings.ToUpper`) are modelled with Lean's ASCII
`Char.isAlpha`, `Char.isDigit`, `Char.isWhitespace` and `Char.toUpper`;
all reserved-word and delimiter comparisons in the source are ASCII.
-/

namespace GoFlyway

/-- Model of `unicode.IsSpace` (ASCII approximation). -/
def isSpaceRune (r : Char) : Bool := r.isWhitespace

/-- Model of split.go `isWordRune`: letters, digits and underscore. -/
def isWordRune (r : Char) : Bool := r.isAlpha || r.isDigit || r = '_'

/-- Model of `strings.TrimSpace` on rune lists. -/
def trimSpace (s : List Char) : List Char :=
  ((s.dropWhile isSpaceRune).reverse.dropWhile isSpaceRune).reverse

/-- Drop the last `n` elements (Go `s[:len(s)-n]`, the effect of
`strings.TrimSuffix` once the suffix is known to be present). -/
def dropLastN (n : Nat) (l : List Char) : List Char := l.take (l.length - n)

/-- Model of `strings.TrimPrefix`. -/
def dropPrefixList (p s : List Char) : List Char :=
  if p.isPrefixOf s then s.drop p.length else s

/-- Model of the `TokenType` constants of split.go. -/
inductive TokenType where
  | TokenText
  | TokenSemicolon
  | TokenBegin
  | TokenEnd
  | TokenDelimiterCommand
deriving DecidableEq

/-- Model of split.go `Token`. `Value` and `DelimiterWord` are rune lists. -/
structure Token where
  type : TokenType
  value : List Char
  delimiterWord : List Char
deriving DecidableEq

/-- Loop of `Tokenizer.readQuotedString`: `acc` is the builder (it already
holds the opening quote), the list argument is the remaining stream.  The
Boolean result is true when the source returns the token together with
`io.EOF` (stream exhausted before a closing quote). -/
def qsLoop (quote : Char) (acc : List Char) : List Char → Token × List Char × Bool
  | [] => (⟨TokenType.TokenText, acc, []⟩, [], true)
  | r :: rest =>
    if r = quote then
      match rest with
      | [] => (⟨TokenType.TokenText, acc ++ [r], []⟩, [], false)
      | next :: rest2 =>
        if next = quote then qsLoop quote (acc ++ [r] ++ [quote]) rest2
        else (⟨TokenType.TokenText, acc ++ [r], []⟩, rest, false)
    else qsLoop quote (acc ++ [r]) rest

/-- Model of `Tokenizer.readQuotedString`, entered after the opening quote
was consumed by `NextToken`. -/
def readQuotedString (quote : Char) (input : List Char) : Token × List Char × Bool :=
  qsLoop quote [quote] input

/-- Loop of `Tokenizer.readLineComment` (EOF is converted to a nil error in
the source, hence the Boolean is always false). -/
def lcLoop (acc : List Char) : List Char → Token × List Char × Bool
  | [] => (⟨TokenType.TokenText, acc, []⟩, [], false)
  | r :: rest =>
    if r = '\n' then (⟨TokenType.TokenText, acc ++ [r], []⟩, rest, false)
    else lcLoop (acc ++ [r]) rest

/-- Model of `Tokenizer.readLineComment`: the leading `-` was consumed by
`NextToken`, the stream still holds the second `-`. -/
def readLineComment : List Char → Token × List Char × Bool
  | [] => (⟨TokenType.TokenText, ['-'], []⟩, [], false)
  | second :: rest => lcLoop ['-', second] rest

/-- Loop of `Tokenizer.readBlockComment`; true means the source returned the
token together with `io.EOF` (unterminated comment not ending in `*`). -/
def bcLoop (acc : List Char) : List Char → Token × List Char × Bool
  | [] => (⟨TokenType.TokenText, acc, []⟩, [], true)
  | r :: rest =>
    if r = '*' then
      match rest with
      | [] => (⟨TokenType.TokenText, acc ++ [r], []⟩, [], false)
      | next :: rest2 =>
        if next = '/' then (⟨TokenType.TokenText, acc ++ [r] ++ ['/'], []⟩, rest2, false)
        else bcLoop (acc ++ [r]) rest
    else bcLoop (acc ++ [r]) rest

/-- Model of `Tokenizer.readBlockComment`: the leading `/` was consumed, the
stream still holds the `*`. -/
def readBlockComment : List Char → Token × List Char × Bool
  | [] => (⟨TokenType.TokenText, ['/'], []⟩, [], true)
  | second :: rest => bcLoop ['/', second] rest

/-- Word-scanning loop of `Tokenizer.readWord` (peek-based: a non-word rune
is left on the stream). Returns the word and the remaining stream. -/
def wordLoop (acc : List Char) : List Char → List Char × List Char
  | [] => (acc, [])
  | r :: rest => if isWordRune r then wordLoop (acc ++ [r]) rest else (acc, r :: rest)

/-- Loop of `processDelimiterCommand`: consume through `\n` or `;`.  The
Boolean result records whether a terminator was found (false = stream ended
first; the source converts `io.EOF` to nil and returns early, leaving
`DelimiterWord` empty). -/
def pdcLoop (acc : List Char) : List Char → List Char × List Char × Bool
  | [] => (acc, [], false)
  | r :: rest =>
    if r = '\n' ∨ r = ';' then (acc ++ [r], rest, true)
    else pdcLoop (acc ++ [r]) rest

/-- Model of `processDelimiterCommand`.  Note the source computes the new
delimiter with `strings.TrimPrefix(fullCommand, "DELIMITER")`, using the
uppercase literal regardless of how `commandStart` was spelled, and skips
that computation entirely when the stream ends before `\n`/`;`. -/
def processDelimiterCommand (commandStart : List Char) (input : List Char) :
    Token × List Char × Bool :=
  match pdcLoop commandStart input with
  | (full, rest, true) =>
    (⟨TokenType.TokenDelimiterCommand, full,
      trimSpace (dropPrefixList "DELIMITER".data full)⟩, rest, false)
  | (full, rest, false) => (⟨TokenType.TokenDelimiterCommand, full, []⟩, rest, false)

/-- Whitespace-skipping loop at the start of `processAsBlockStart`; the
consumed whitespace is appended to the builder `acc`. -/
def asSkipWs (acc : List Char) : List Char → List Char × List Char
  | [] => (acc, [])
  | r :: rest => if isSpaceRune r then asSkipWs (acc ++ [r]) rest else (acc, r :: rest)

/-- Model of `Tokenizer.readUntilRune`: read up to (excluding) `delim`,
which is pushed back onto the stream; true means the stream ended first. -/
def rurLoop (delim : Char) (acc : List Char) : List Char → List Char × List Char × Bool
  | [] => (acc, [], true)
  | r :: rest =>
    if r = delim then (acc, r :: rest, false) else rurLoop delim (acc ++ [r]) rest

/-- Loop of `Tokenizer.readUntilBlockDelimiter`.  The source keeps a sliding
window of the last `endRunes.length` consumed runes; here the window is the
corresponding suffix of the accumulated text, and the match test
(`count >= len(endRunes)` and window equality) is the suffix test. -/
def bdLoop (endRunes : List Char) (acc : List Char) : List Char → List Char × List Char × Bool
  | [] => (acc, [], true)
  | r :: rest =>
    if endRunes.length ≤ (acc ++ [r]).length ∧ endRunes.isSuffixOf (acc ++ [r]) then
      (acc ++ [r], rest, false)
    else bdLoop endRunes (acc ++ [r]) rest

/-- Model of `Tokenizer.readUntilBlockDelimiter`: consume through the first
occurrence of the closing `$tag$`; true means the stream ended first. -/
def readUntilBlockDelimiter (tag : List Char) (input : List Char) :
    List Char × List Char × Bool :=
  bdLoop ('$' :: tag ++ ['$']) [] input

/-- Model of `Tokenizer.processAsBlockStart`, entered after the word
spelled (case-insensitively) `AS` was read.  All `io.EOF` outcomes are
converted to nil errors in the source, so the Boolean is always false. -/
def processAsBlockStart (word : List Char) (input : List Char) : Token × List Char × Bool :=
  match asSkipWs word input with
  | (acc1, []) => (⟨TokenType.TokenText, acc1, []⟩, [], false)
  | (acc1, c :: rest2) =>
    if c = '$' then
      match rurLoop '$' [] rest2 with
      | (tag, _, true) => (⟨TokenType.TokenText, acc1 ++ [c] ++ tag, []⟩, [], false)
      | (tag, rest3, false) =>
        match rest3 with
        | [] => (⟨TokenType.TokenText, acc1 ++ [c] ++ tag, []⟩, [], false)
        | d :: rest4 =>
          match readUntilBlockDelimiter tag rest4 with
          | (blockContent, rest5, _) =>
            (⟨TokenType.TokenText, acc1 ++ [c] ++ tag ++ [d] ++ blockContent, []⟩, rest5, false)
    else (⟨TokenType.TokenText, acc1, []⟩, c :: rest2, false)

/-- Model of `Tokenizer.readWord`: finish the word started by `first`, then
dispatch on its uppercase spelling. -/
def readWord (first : Char) (input : List Char) : Token × List Char × Bool :=
  match wordLoop [first] input with
  | (word, rest) =>
    if word.map Char.toUpper = "BEGIN".data then
      (⟨TokenType.TokenBegin, word, []⟩, rest, false)
    else if word.map Char.toUpper = "END".data then
      (⟨TokenType.TokenEnd, word, []⟩, rest, false)
    else if word.map Char.toUpper = "DELIMITER".data then
      processDelimiterCommand word rest
    else if word.map Char.toUpper = "AS".data then
      processAsBlockStart word rest
    else (⟨TokenType.TokenText, word, []⟩, rest, false)

/-- Model of `Tokenizer.NextToken`.  `none` is `io.EOF` on the very first
read; otherwise the Boolean records whether the token came back together
with `io.EOF` (in which case `Split` discards it). -/
def NextToken : List Char → Option (Token × List Char × Bool)
  | [] => none
  | r :: rest =>
    if r = '\'' ∨ r = '"' then some (readQuotedString r rest)
    else if r = '-' then
      if rest.head? = some '-' then some (readLineComment rest)
      else some (⟨TokenType.TokenText, [r], []⟩, rest, false)
    else if r = '/' then
      if rest.head? = some '*' then some (readBlockComment rest)
      else some (⟨TokenType.TokenText, [r], []⟩, rest, false)
    else if r = ';' then some (⟨TokenType.TokenSemicolon, [';'], []⟩, rest, false)
    else if r.isAlpha ∨ r = '_' then some (readWord r rest)
    else some (⟨TokenType.TokenText, [r], []⟩, rest, false)

/-- The word-boundary test preceding a matched `DELIMITER` in raw-scan mode:
true when the character just before the matched word (the last rune of
`tmp`) exists and is neither `;` nor whitespace, i.e. the word is the tail
of a longer identifier and the match is a false positive. -/
def notAtWordStart (tmp : List Char) : Bool :=
  match tmp.getLast? with
  | some last => !(last == ';') && !(isSpaceRune last)
  | none => false

/-- Loop of `readUntilDelimiter` (raw-scan mode).  `s` is the builder.
Returns (content, next delimiter, remaining stream, eof flag); on a normal
delimiter hit the content is the builder with the delimiter suffix trimmed,
exactly as `strings.TrimSuffix` does in the source. -/
def rudLoop (delim : List Char) (s : List Char) : List Char → List Char × List Char × List Char × Bool
  | [] => (s, delim, [], true)
  | r :: rest =>
    if delim.isSuffixOf (s ++ [r]) then
      (dropLastN delim.length (s ++ [r]), delim, rest, false)
    else if "DELIMITER".data.isSuffixOf ((s ++ [r]).map Char.toUpper) then
      if notAtWordStart (dropLastN 9 (s ++ [r])) then
        rudLoop delim (s ++ [r]) rest
      else
        match rest with
        | [] => (dropLastN 9 (s ++ [r]), [';'], [], true)
        | r2 :: rest2 =>
          if r2 = ';' then (dropLastN 9 (s ++ [r]), [';'], rest2, false)
          else if ¬isSpaceRune r2 then rudLoop delim (s ++ [r]) rest
          else
            match processDelimiterCommand "DELIMITER".data rest2 with
            | (tok, rest3, _) => (dropLastN 9 (s ++ [r]), tok.delimiterWord, rest3, false)
    else rudLoop delim (s ++ [r]) rest

/-- Model of `readUntilDelimiter`. -/
def readUntilDelimiter (delim : List Char) (input : List Char) :
    List Char × List Char × List Char × Bool :=
  rudLoop delim [] input

/-- The mutable locals of `Split`: emitted statements, the statement
builder, `beginDepth` (a Go int, hence `Int` here) and the active
delimiter. -/
structure SplitState where
  statements : List (List Char)
  buf : List Char
  beginDepth : Int
  currentDelim : List Char
deriving DecidableEq

/-- The token `switch` in the standard-mode branch of `Split`. -/
def splitStep (st : SplitState) (tok : Token) : SplitState :=
  match tok.type with
  | TokenType.TokenSemicolon =>
    if st.beginDepth = 0 then
      if (st.buf ++ tok.value).length > 0 then
        ⟨st.statements ++ [st.buf ++ tok.value], [], st.beginDepth, st.currentDelim⟩
      else ⟨st.statements, st.buf ++ tok.value, st.beginDepth, st.currentDelim⟩
    else ⟨st.statements, st.buf ++ tok.value, st.beginDepth, st.currentDelim⟩
  | TokenType.TokenBegin =>
    ⟨st.statements, st.buf ++ tok.value, st.beginDepth + 1, st.currentDelim⟩
  | TokenType.TokenEnd =>
    ⟨st.statements, st.buf ++ tok.value,
      if st.beginDepth > 0 then st.beginDepth - 1 else st.beginDepth, st.currentDelim⟩
  | TokenType.TokenDelimiterCommand =>
    ⟨st.statements, [], st.beginDepth, tok.delimiterWord⟩
  | TokenType.TokenText =>
    ⟨st.statements, st.buf ++ tok.value, st.beginDepth, st.currentDelim⟩

/-- The main loop of `Split`.  One unit of fuel is one iteration of the Go
`for` loop; `Split` supplies `input.length + 1` units, which suffices since
every non-final iteration consumes at least one rune. -/
def splitLoop : Nat → SplitState → List Char → List (List Char)
  | 0, st, _ => st.statements
  | fuel + 1, st, input =>
    if st.currentDelim ≠ [';'] then
      match readUntilDelimiter st.currentDelim input with
      | (content, nextDelim, rest, isEof) =>
        if isEof then
          if (if content ≠ [] then st.buf ++ content else st.buf).length > 0 then
            st.statements ++ [if content ≠ [] then st.buf ++ content else st.buf]
          else st.statements
        else
          splitLoop fuel
            ⟨if trimSpace (st.buf ++ content) ≠ [] then st.statements ++ [st.buf ++ content]
              else st.statements, [], st.beginDepth, nextDelim⟩ rest
    else
      match NextToken input with
      | none => if st.buf.length > 0 then st.statements ++ [st.buf] else st.statements
      | some (_, _, true) => if st.buf.length > 0 then st.statements ++ [st.buf] else st.statements
      | some (tok, rest, false) => splitLoop fuel (splitStep st tok) rest

/-- Model of `Split`: split a SQL script into statements. -/
def Split (input : List Char) : List (List Char) :=
  splitLoop (input.length + 1) ⟨[], [], 0, [';']⟩ input

/-- Iterated tokenization (used only to state well-termination of inputs);
one unit of fuel per token. -/
def tokenize : Nat → List Char → List (Token × Bool)
  | 0, _ => []
  | fuel + 1, input =>
    match NextToken input with
    | none => []
    | some (tok, rest, e) => (tok, e) :: tokenize fuel rest

/-- The token trace of an input. -/
def Tokens (input : List Char) : List (Token × Bool) :=
  tokenize (input.length + 1) input

/-- An input is well-terminated when the scanner never runs off the end of
the stream inside a token, i.e. no token of its trace carries the `io.EOF`
flag (this is exactly the unterminated-quote / unterminated-block-comment
condition of the tokenizer). -/
def WellTerminated (input : List Char) : Prop :=
  ∀ p ∈ Tokens input, p.2 = false

/-- An input contains no DELIMITER directive when no token of its trace is
a delimiter-command token. -/
def NoDelimiterDirective (input : List Char) : Prop :=
  ∀ p ∈ Tokens input, p.1.type ≠ TokenType.TokenDelimiterCommand

instance (input : List Char) : Decidable (WellTerminated input) :=
  inferInstanceAs (Decidable (∀ p ∈ Tokens input, p.2 = false))

instance (input : List Char) : Decidable (NoDelimiterDirective input) :=
  inferInstanceAs (Decidable (∀ p ∈ Tokens input, p.1.type ≠ TokenType.TokenDelimiterCommand))

/-- Model of `strings.Fields` (split on whitespace, drop empty fields). -/
def fieldsOf (s : List Char) : List (List Char) :=
  (s.splitOnP isSpaceRune).filter (fun w => w ≠ [])

/-- The marker-command extraction of `SplitByDelimiter`: given the
configured prefix and a raw line, compute the `cmd` string of the source
(empty when the line is not a recognized marker comment). -/
def sbdCmd (pre text : List Char) : List Char :=
  if ['-', '-'].isPrefixOf (trimSpace text) then
    if pre = [] then
      match fieldsOf (trimSpace text) with
      | [_, s2] => dropPrefixList ['+'] s2
      | _ => []
    else
      match fieldsOf (trimSpace text) with
      | [_, s2, s3] => if s2 = pre ∨ s2 = '+' :: pre then s3 else []
      | [_, s2] => dropPrefixList ['+'] s2
      | _ => []
  else []

/-- Line loop of `SplitByDelimiter`.  State: accumulated segment `buf`,
`isFirst` (no newline joined before the first line of a segment),
`inStatementBlock`, and the output lists. -/
def sbdLoop (pre : List Char) (buf : List Char) (isFirst inStatementBlock : Bool)
    (stmts : List (List Char)) (blocks : List Bool) :
    List (List Char) → List (List Char) × List Bool
  | [] =>
    if buf.length > 0 ∧ trimSpace buf ≠ [] then (stmts ++ [buf], blocks ++ [false])
    else (stmts, blocks)
  | text :: restLines =>
    if sbdCmd pre text = "StatementBegin".data ∨ sbdCmd pre text = "statementBegin".data then
      if trimSpace buf ≠ [] then
        sbdLoop pre text false true (stmts ++ [buf]) (blocks ++ [false]) restLines
      else
        sbdLoop pre text false true stmts blocks restLines
    else if sbdCmd pre text = "StatementEnd".data ∨ sbdCmd pre text = "statementEnd".data then
      sbdLoop pre [] true false
        (stmts ++ [(if ¬isFirst then buf ++ ['\n'] else buf) ++ text]) (blocks ++ [true]) restLines
    else
      sbdLoop pre ((if isFirst then buf else buf ++ ['\n']) ++ text) false inStatementBlock
        stmts blocks restLines

/-- Model of `SplitByDelimiter`: the input is already split into lines (the
`bufio.Scanner` of the source yields newline-free lines). -/
def SplitByDelimiter (lines : List (List Char)) (pre : List Char) :
    List (List Char) × List Bool :=
  sbdLoop pre [] true false [] [] lines

/-- The last line of an accumulated segment (text after the final `\n`). -/
def lastLine (s : List Char) : List Char :=
  (s.reverse.takeWhile (fun c => ¬c = '\n')).reverse

/-- A line is a recognized end-marker exactly when the source's `cmd` for it
is `StatementEnd` (either capitalization). -/
def isEndMarkerLine (pre text : List Char) : Bool :=
  sbdCmd pre text = "StatementEnd".data ∨ sbdCmd pre text = "statementEnd".data

/-! ## Verbatim-consumption lemmas

Every tokenizer routine builds its value out of exactly the runes it
consumed, so value ++ remaining-stream reconstructs the stream it was
given.  These lemmas drive the lossless round-trip proof. -/

theorem qsLoop_verbatim (quote : Char) (acc input : List Char) :
    (qsLoop quote acc input).1.value ++ (qsLoop quote acc input).2.1 = acc ++ input := by
  induction acc, input using qsLoop.induct quote with
  | case1 a => simp [qsLoop]
  | case2 a => simp [qsLoop]
  | case3 a rest2 ih => rw [qsLoop.eq_def]; simp only [if_pos rfl]; simpa using ih
  | case4 a next rest2 h => rw [qsLoop.eq_def]; simp [h]
  | case5 a next rest2 h ih => rw [qsLoop.eq_def]; simp only [if_neg h]; simpa using ih

theorem qsLoop_value_acc (quote : Char) (acc input : List Char) :
    ∃ t, (qsLoop quote acc input).1.value = acc ++ t := by
  induction acc, input using qsLoop.induct quote with
  | case1 a => exact ⟨[], by simp [qsLoop]⟩
  | case2 a => exact ⟨[quote], by simp [qsLoop]⟩
  | case3 a rest2 ih =>
    obtain ⟨t, ht⟩ := ih
    refine ⟨[quote, quote] ++ t, ?_⟩
    rw [qsLoop.eq_def]; simp only [if_pos rfl]; simp at ht ⊢; simpa using ht
  | case4 a next rest2 h => exact ⟨[quote], by rw [qsLoop.eq_def]; simp [h]⟩
  | case5 a next rest2 h ih =>
    obtain ⟨t, ht⟩ := ih
    refine ⟨[next] ++ t, ?_⟩
    rw [qsLoop.eq_def]; simp only [if_neg h]; simp at ht ⊢; simpa using ht

theorem lcLoop_verbatim (acc input : List Char) :
    (lcLoop acc input).1.value ++ (lcLoop acc input).2.1 = acc ++ input := by
  induction acc, input using lcLoop.induct with
  | case1 a => simp [lcLoop]
  | case2 a rest => simp [lcLoop]
  | case3 a r rest h ih => rw [lcLoop.eq_def]; simp only [if_neg h]; simpa using ih

theorem lcLoop_value_acc (acc input : List Char) :
    ∃ t, (lcLoop acc input).1.value = acc ++ t := by
  induction acc, input using lcLoop.induct with
  | case1 a => exact ⟨[], by simp [lcLoop]⟩
  | case2 a rest => exact ⟨['\n'], by simp [lcLoop]⟩
  | case3 a r rest h ih =>
    obtain ⟨t, ht⟩ := ih
    refine ⟨[r] ++ t, ?_⟩
    rw [lcLoop.eq_def]; simp only [if_neg h]; simp at ht ⊢; simpa using ht

theorem bcLoop_verbatim (acc input : List Char) :
    (bcLoop acc input).1.value ++ (bcLoop acc input).2.1 = acc ++ input := by
  induction acc, input using bcLoop.induct with
  | case1 a => simp [bcLoop]
  | case2 a => simp [bcLoop]
  | case3 a rest => simp [bcLoop]
  | case4 a r rest h ih => rw [bcLoop.eq_def]; simp only [if_pos rfl, if_neg h]; simpa using ih
  | case5 a r rest h ih => rw [bcLoop.eq_def]; simp only [if_neg h]; simpa using ih

theorem bcLoop_value_acc (acc input : List Char) :
    ∃ t, (bcLoop acc input).1.value = acc ++ t := by
  induction acc, input using bcLoop.induct with
  | case1 a => exact ⟨[], by simp [bcLoop]⟩
  | case2 a => exact ⟨['*'], by simp [bcLoop]⟩
  | case3 a rest => exact ⟨['*', '/'], by simp [bcLoop]⟩
  | case4 a r rest h ih =>
    obtain ⟨t, ht⟩ := ih
    refine ⟨['*'] ++ t, ?_⟩
    rw [bcLoop.eq_def]; simp only [if_pos rfl, if_neg h]; simp at ht ⊢; simpa using ht
  | case5 a r rest h ih =>
    obtain ⟨t, ht⟩ := ih
    refine ⟨[r] ++ t, ?_⟩
    rw [bcLoop.eq_def]; simp only [if_neg h]; simp at ht ⊢; simpa using ht

theorem wordLoop_verbatim (acc input : List Char) :
    (wordLoop acc input).1 ++ (wordLoop acc input).2 = acc ++ input ∧
      ∃ t, (wordLoop acc input).1 = acc ++ t := by
  induction acc, input using wordLoop.induct with
  | case1 a => exact ⟨by simp [wordLoop], ⟨[], by simp [wordLoop]⟩⟩
  | case2 a r rest h ih =>
    obtain ⟨ih1, t, ht⟩ := ih
    refine ⟨?_, ⟨[r] ++ t, ?_⟩⟩
    · rw [wordLoop.eq_def]; simp only [h, if_pos]; simpa using ih1
    · rw [wordLoop.eq_def]; simp only [h, if_pos]; simp at ht ⊢; simpa using ht
  | case3 a r rest h => exact ⟨by simp [wordLoop, h], ⟨[], by simp [wordLoop, h]⟩⟩

theorem pdcLoop_verbatim (acc input : List Char) :
    (pdcLoop acc input).1 ++ (pdcLoop acc input).2.1 = acc ++ input ∧
      ∃ t, (pdcLoop acc input).1 = acc ++ t := by
  induction acc, input using pdcLoop.induct with
  | case1 a => exact ⟨by simp [pdcLoop], ⟨[], by simp [pdcLoop]⟩⟩
  | case2 a r rest h => exact ⟨by simp [pdcLoop, h], ⟨[r], by simp [pdcLoop, h]⟩⟩
  | case3 a r rest h ih =>
    obtain ⟨ih1, t, ht⟩ := ih
    refine ⟨?_, ⟨[r] ++ t, ?_⟩⟩
    · rw [pdcLoop.eq_def]; simp only [if_neg h]; simpa using ih1
    · rw [pdcLoop.eq_def]; simp only [if_neg h]; simp at ht ⊢; simpa using ht

theorem asSkipWs_verbatim (acc input : List Char) :
    (asSkipWs acc input).1 ++ (asSkipWs acc input).2 = acc ++ input ∧
      ∃ t, (asSkipWs acc input).1 = acc ++ t := by
  induction acc, input using asSkipWs.induct with
  | case1 a => exact ⟨by simp [asSkipWs], ⟨[], by simp [asSkipWs]⟩⟩
  | case2 a r rest h ih =>
    obtain ⟨ih1, t, ht⟩ := ih
    refine ⟨?_, ⟨[r] ++ t, ?_⟩⟩
    · rw [asSkipWs.eq_def]; simp only [h, if_pos]; simpa using ih1
    · rw [asSkipWs.eq_def]; simp only [h, if_pos]; simp at ht ⊢; simpa using ht
  | case3 a r rest h => exact ⟨by simp [asSkipWs, h], ⟨[], by simp [asSkipWs, h]⟩⟩

theorem rurLoop_verbatim (delim : Char) (acc input : List Char) :
    (rurLoop delim acc input).1 ++ (rurLoop delim acc input).2.1 = acc ++ input := by
  induction acc, input using rurLoop.induct delim with
  | case1 a => simp [rurLoop]
  | case2 a rest => simp [rurLoop]
  | case3 a r rest h ih => rw [rurLoop.eq_def]; simp only [if_neg h]; simpa using ih

theorem bdLoop_verbatim (endRunes acc input : List Char) :
    (bdLoop endRunes acc input).1 ++ (bdLoop endRunes acc input).2.1 = acc ++ input := by
  induction acc, input using bdLoop.induct endRunes with
  | case1 a => simp [bdLoop]
  | case2 a r rest h => rw [bdLoop.eq_def]; dsimp only; rw [if_pos h]; simp
  | case3 a r rest h ih => rw [bdLoop.eq_def]; dsimp only; rw [if_neg h]; simpa using ih

theorem rurLoop_eof (delim : Char) (acc input : List Char) :
    (rurLoop delim acc input).2.2 = true → (rurLoop delim acc input).2.1 = [] := by
  induction acc, input using rurLoop.induct delim with
  | case1 a => simp [rurLoop]
  | case2 a rest => simp [rurLoop]
  | case3 a r rest h ih => rw [rurLoop.eq_def]; simp only [if_neg h]; exact ih

theorem processDelimiterCommand_verbatim (cs input : List Char) :
    (processDelimiterCommand cs input).1.value ++ (processDelimiterCommand cs input).2.1
        = cs ++ input ∧
      ∃ t, (processDelimiterCommand cs input).1.value = cs ++ t := by
  have h := pdcLoop_verbatim cs input
  rcases hp : pdcLoop cs input with ⟨full, rest, flag⟩
  rw [hp] at h
  cases flag <;> simpa [processDelimiterCommand, hp] using h

theorem processAsBlockStart_verbatim (word input : List Char) :
    (processAsBlockStart word input).1.value ++ (processAsBlockStart word input).2.1
        = word ++ input ∧
      ∃ t, (processAsBlockStart word input).1.value = word ++ t := by
  have hws := asSkipWs_verbatim word input
  rcases hw : asSkipWs word input with ⟨acc1, rem1⟩
  rw [hw] at hws
  obtain ⟨hws1, t1, ht1⟩ := hws
  dsimp only at hws1 ht1
  cases rem1 with
  | nil =>
    simp only [processAsBlockStart, hw]
    exact ⟨by simpa using hws1, ⟨t1, by simpa using ht1⟩⟩
  | cons c rest2 =>
    by_cases hc : c = '$'
    · subst hc
      have hr := rurLoop_verbatim '$' [] rest2
      have hre := rurLoop_eof '$' [] rest2
      rcases hru : rurLoop '$' [] rest2 with ⟨tag, rem3, flag3⟩
      rw [hru] at hr hre
      simp only [List.nil_append] at hr
      cases flag3 with
      | true =>
        have h3 : rem3 = [] := by simpa using hre
        subst h3
        simp only [processAsBlockStart, hw, hru, if_pos rfl]
        constructor
        · simp at hr
          simp [← hr] at hws1 ⊢
          simpa using hws1
        · exact ⟨t1 ++ ['$'] ++ tag, by simp [ht1]⟩
      | false =>
        cases rem3 with
        | nil =>
          simp only [processAsBlockStart, hw, hru, if_pos rfl]
          constructor
          · simp at hr
            simp [← hr] at hws1 ⊢
            simpa using hws1
          · exact ⟨t1 ++ ['$'] ++ tag, by simp [ht1]⟩
        | cons d rest4 =>
          have hbd := bdLoop_verbatim ('$' :: tag ++ ['$']) [] rest4
          rcases hbl : bdLoop ('$' :: tag ++ ['$']) [] rest4 with ⟨bc, rest5, flag5⟩
          rw [hbl] at hbd
          simp only [List.nil_append] at hbd
          simp only [processAsBlockStart, readUntilBlockDelimiter, hw, hru, hbl, if_pos rfl]
          constructor
          · have : acc1 ++ '$' :: rest2 = word ++ input := hws1
            simp [← hbd, ← hr] at this ⊢
            simpa using this
          · exact ⟨t1 ++ ['$'] ++ tag ++ [d] ++ bc, by simp [ht1]⟩
    · simp only [processAsBlockStart, hw, if_neg hc]
      exact ⟨by simpa using hws1, ⟨t1, by simpa using ht1⟩⟩

theorem readWord_verbatim (first : Char) (input : List Char) :
    (readWord first input).1.value ++ (readWord first input).2.1 = first :: input ∧
      (readWord first input).1.value ≠ [] := by
  have hw := wordLoop_verbatim [first] input
  rcases hwl : wordLoop [first] input with ⟨word, rest⟩
  rw [hwl] at hw
  obtain ⟨hw1, t, ht⟩ := hw
  simp only [List.singleton_append] at hw1 ht
  have hwne : word ≠ [] := by simp [ht]
  simp only [readWord, hwl]
  split_ifs with h1 h2 h3 h4
  · exact ⟨by simpa using hw1, hwne⟩
  · exact ⟨by simpa using hw1, hwne⟩
  · obtain ⟨hp1, tp, htp⟩ := processDelimiterCommand_verbatim word rest
    refine ⟨?_, ?_⟩
    · rw [hp1]; exact hw1
    · rw [htp]; simp [ht]
  · obtain ⟨hp1, tp, htp⟩ := processAsBlockStart_verbatim word rest
    refine ⟨?_, ?_⟩
    · rw [hp1]; exact hw1
    · rw [htp]; simp [ht]
  · exact ⟨by simpa using hw1, hwne⟩

theorem NextToken_spec (input : List Char) (tok : Token) (rest : List Char) (e : Bool)
    (h : NextToken input = some (tok, rest, e)) :
    tok.value ++ rest = input ∧ tok.value ≠ [] := by
  cases input with
  | nil => simp [NextToken] at h
  | cons r rs =>
    rw [NextToken.eq_def] at h
    dsimp only at h
    by_cases hq : r = '\'' ∨ r = '"'
    · rw [if_pos hq] at h
      have hx : readQuotedString r rs = (tok, rest, e) := Option.some.inj h
      have hv := qsLoop_verbatim r [r] rs
      have ha := qsLoop_value_acc r [r] rs
      rw [readQuotedString] at hx
      rw [hx] at hv ha
      dsimp only at hv ha
      obtain ⟨t, ht⟩ := ha
      exact ⟨by simpa using hv, by simp [ht]⟩
    · rw [if_neg hq] at h
      by_cases hm : r = '-'
      · rw [if_pos hm] at h
        by_cases hh : rs.head? = some '-'
        · rw [if_pos hh] at h
          have hx : readLineComment rs = (tok, rest, e) := Option.some.inj h
          cases rs with
          | nil => simp [readLineComment] at hx; obtain ⟨h1, h2, h3⟩ := hx; subst hm; simp [← h1, ← h2]
          | cons s rs2 =>
            simp only [readLineComment] at hx
            have hv := lcLoop_verbatim ['-', s] rs2
            have ha := lcLoop_value_acc ['-', s] rs2
            rw [hx] at hv ha
            dsimp only at hv ha
            obtain ⟨t, ht⟩ := ha
            subst hm
            have hs : s = '-' := by simpa using hh
            subst hs
            exact ⟨by simpa using hv, by simp [ht]⟩
        · rw [if_neg hh] at h
          have hx := Option.some.inj h
          simp only [Prod.mk.injEq] at hx
          obtain ⟨h1, h2, h3⟩ := hx
          subst hm
          subst h1; subst h2
          simp
      · rw [if_neg hm] at h
        by_cases hsl : r = '/'
        · rw [if_pos hsl] at h
          by_cases hh : rs.head? = some '*'
          · rw [if_pos hh] at h
            have hx : readBlockComment rs = (tok, rest, e) := Option.some.inj h
            cases rs with
            | nil => simp at hh
            | cons s rs2 =>
              simp only [readBlockComment] at hx
              have hv := bcLoop_verbatim ['/', s] rs2
              have ha := bcLoop_value_acc ['/', s] rs2
              rw [hx] at hv ha
              dsimp only at hv ha
              obtain ⟨t, ht⟩ := ha
              subst hsl
              have hs : s = '*' := by simpa using hh
              subst hs
              exact ⟨by simpa using hv, by simp [ht]⟩
          · rw [if_neg hh] at h
            have hx := Option.some.inj h
            simp only [Prod.mk.injEq] at hx
            obtain ⟨h1, h2, h3⟩ := hx
            subst hsl
            subst h1; subst h2
            simp
        · rw [if_neg hsl] at h
          by_cases hsemi : r = ';'
          · rw [if_pos hsemi] at h
            have hx := Option.some.inj h
            simp only [Prod.mk.injEq] at hx
            obtain ⟨h1, h2, h3⟩ := hx
            subst hsemi
            subst h1; subst h2
            simp
          · rw [if_neg hsemi] at h
            by_cases hword : r.isAlpha = true ∨ r = '_'
            · rw [if_pos hword] at h
              have hx : readWord r rs = (tok, rest, e) := Option.some.inj h
              have hv := readWord_verbatim r rs
              rw [hx] at hv
              exact ⟨hv.1, hv.2⟩
            · rw [if_neg hword] at h
              have hx := Option.some.inj h
              simp only [Prod.mk.injEq] at hx
              obtain ⟨h1, h2, h3⟩ := hx
              subst h1; subst h2
              simp

theorem NextToken_progress (input : List Char) (tok : Token) (rest : List Char) (e : Bool)
    (h : NextToken input = some (tok, rest, e)) : rest.length < input.length := by
  obtain ⟨h1, h2⟩ := NextToken_spec input tok rest e h
  have := congrArg List.length h1
  simp only [List.length_append] at this
  have hv : 0 < tok.value.length := List.length_pos.mpr h2
  omega

theorem NextToken_none (input : List Char) (h : NextToken input = none) : input = [] := by
  cases input with
  | nil => rfl
  | cons r rs =>
    rw [NextToken.eq_def] at h
    dsimp only at h
    split_ifs at h

/-! ## Round-trip machinery for the statement assembler -/

theorem tokenize_fuel (f : Nat) :
    ∀ (g : Nat) (s : List Char), s.length < f → s.length < g → tokenize f s = tokenize g s := by
  induction f with
  | zero => intro g s hf _; omega
  | succ f ih =>
    intro g s hf hg
    cases g with
    | zero => omega
    | succ g =>
      simp only [tokenize]
      cases hnt : NextToken s with
      | none => rfl
      | some trip =>
        rcases trip with ⟨tok, rest, e⟩
        have hp := NextToken_progress s tok rest e hnt
        exact congrArg _ (ih g rest (by omega) (by omega))

theorem Tokens_cons (input : List Char) (tok : Token) (rest : List Char) (e : Bool)
    (h : NextToken input = some (tok, rest, e)) :
    Tokens input = (tok, e) :: Tokens rest := by
  have hp := NextToken_progress input tok rest e h
  rw [Tokens, Tokens]
  simp only [tokenize, h]
  exact congrArg _ (tokenize_fuel input.length (rest.length + 1) rest (by omega) (by omega))

theorem splitStep_join (st : SplitState) (tok : Token)
    (hd : st.currentDelim = [';']) (hty : tok.type ≠ TokenType.TokenDelimiterCommand) :
    (splitStep st tok).statements.flatten ++ (splitStep st tok).buf
        = st.statements.flatten ++ st.buf ++ tok.value ∧
      (splitStep st tok).currentDelim = [';'] := by
  rcases tok with ⟨ty, v, dw⟩
  rcases st with ⟨stmts, buf, depth, delim⟩
  cases ty with
  | TokenSemicolon =>
    simp only [splitStep]
    split_ifs <;> simp_all
  | TokenBegin => simp_all [splitStep]
  | TokenEnd => simp_all [splitStep]
  | TokenDelimiterCommand => simp at hty
  | TokenText => simp_all [splitStep]

theorem splitLoop_join (fuel : Nat) :
    ∀ (st : SplitState) (input : List Char), input.length < fuel →
      st.currentDelim = [';'] →
      (∀ p ∈ Tokens input, p.2 = false) →
      (∀ p ∈ Tokens input, p.1.type ≠ TokenType.TokenDelimiterCommand) →
      (splitLoop fuel st input).flatten = st.statements.flatten ++ st.buf ++ input := by
  induction fuel with
  | zero => intro st input h _ _ _; omega
  | succ fuel ih =>
    intro st input hlen hd hwt hnd
    simp only [splitLoop]
    rw [if_neg (by simp [hd])]
    cases hnt : NextToken input with
    | none =>
      have hnil : input = [] := NextToken_none input hnt
      subst hnil
      split_ifs with hb
      · simp
      · have : st.buf = [] := by
          rcases hbuf : st.buf with _ | ⟨c, cs⟩
          · rfl
          · rw [hbuf] at hb; simp at hb
        simp [this]
    | some trip =>
      rcases trip with ⟨tok, rest, e⟩
      have htr := Tokens_cons input tok rest e hnt
      have he : e = false := by
        have := hwt (tok, e) (by rw [htr]; exact List.mem_cons_self _ _)
        simpa using this
      subst he
      have hty : tok.type ≠ TokenType.TokenDelimiterCommand := by
        have := hnd (tok, false) (by rw [htr]; exact List.mem_cons_self _ _)
        simpa using this
      have hstep := splitStep_join st tok hd hty
      have hp := NextToken_progress input tok rest false hnt
      have hrec := ih (splitStep st tok) rest (by omega) hstep.2
        (fun p hmem => hwt p (by rw [htr]; exact List.mem_cons_of_mem _ hmem))
        (fun p hmem => hnd p (by rw [htr]; exact List.mem_cons_of_mem _ hmem))
      obtain ⟨hv, _⟩ := NextToken_spec input tok rest false hnt
      dsimp only
      rw [hrec, hstep.1, ← hv]
      simp

/-- C1: for every well-terminated input (the scanner never hits end of
stream inside a token) containing no DELIMITER directive, concatenating the
statements returned by `Split` reproduces the input text exactly. -/
theorem split_lossless_roundtrip (input : List Char)
    (hwt : WellTerminated input) (hnd : NoDelimiterDirective input) :
    (Split input).flatten = input := by
  have h := splitLoop_join (input.length + 1) ⟨[], [], 0, [';']⟩ input (by omega) rfl hwt hnd
  simpa [Split] using h

/-- Witness for C1 at a concrete well-terminated two-statement script. -/
theorem split_lossless_roundtrip_witness :
    WellTerminated "SELECT 1; SELECT 2;".data ∧
      NoDelimiterDirective "SELECT 1; SELECT 2;".data ∧
      (Split "SELECT 1; SELECT 2;".data).flatten = "SELECT 1; SELECT 2;".data :=
  ⟨by decide, by decide, split_lossless_roundtrip _ (by decide) (by decide)⟩

/-- C6: the block depth of `Split` never goes negative: every token step
preserves non-negativity, a BEGIN token increments the depth (appending its
text to the buffer), an END token decrements only a positive depth and at
depth 0 is absorbed as plain buffer text with the depth staying put; and a
balanced BEGIN..END; block with internal semicolons is one statement. -/
theorem split_block_depth_nonneg :
    (∀ (st : SplitState) (tok : Token), 0 ≤ st.beginDepth → 0 ≤ (splitStep st tok).beginDepth) ∧
    (∀ (st : SplitState) (tok : Token), tok.type = TokenType.TokenBegin →
      (splitStep st tok).beginDepth = st.beginDepth + 1 ∧
        (splitStep st tok).buf = st.buf ++ tok.value) ∧
    (∀ (st : SplitState) (tok : Token), tok.type = TokenType.TokenEnd →
      (splitStep st tok).beginDepth
          = (if st.beginDepth > 0 then st.beginDepth - 1 else st.beginDepth) ∧
        (splitStep st tok).buf = st.buf ++ tok.value ∧
        (splitStep st tok).statements = st.statements) ∧
    Split "BEGIN; INSERT INTO logs VALUES (1); COMMIT; END;".data
      = ["BEGIN; INSERT INTO logs VALUES (1); COMMIT; END;".data] := by
  refine ⟨?_, ?_, ?_, by decide⟩
  · intro st tok h
    rcases tok with ⟨ty, v, dw⟩
    rcases st with ⟨stmts, buf, depth, delim⟩
    have h' : 0 ≤ depth := h
    cases ty <;> simp only [splitStep] <;> (try split_ifs) <;> (try dsimp only) <;> omega
  · intro st tok h
    rcases tok with ⟨ty, v, dw⟩
    rcases st with ⟨stmts, buf, depth, delim⟩
    cases ty <;> simp_all [splitStep]
  · intro st tok h
    rcases tok with ⟨ty, v, dw⟩
    rcases st with ⟨stmts, buf, depth, delim⟩
    cases ty <;> simp_all [splitStep]

/-- Witness for C6: the non-negativity preservation at an unmatched END
token at depth 0. -/
theorem split_block_depth_nonneg_witness :
    0 ≤ (splitStep ⟨[], [], 0, [';']⟩ ⟨TokenType.TokenEnd, "END".data, []⟩).beginDepth :=
  split_block_depth_nonneg.1 ⟨[], [], 0, [';']⟩ ⟨TokenType.TokenEnd, "END".data, []⟩ (by decide)

/-- C8: processing a DelimiterDirective token in standard mode switches the
active delimiter to the directive word and clears the buffer without
emitting it: the loop continues with the same statement list and the same
block depth. -/
theorem split_delimiter_directive_frame (fuel : Nat) (st : SplitState) (tok : Token)
    (input rest : List Char)
    (hd : st.currentDelim = [';'])
    (hnt : NextToken input = some (tok, rest, false))
    (hty : tok.type = TokenType.TokenDelimiterCommand) :
    splitLoop (fuel + 1) st input =
      splitLoop fuel ⟨st.statements, [], st.beginDepth, tok.delimiterWord⟩ rest := by
  simp only [splitLoop]
  rw [if_neg (by simp [hd])]
  rw [hnt]
  dsimp only
  rcases tok with ⟨ty, v, dw⟩
  rcases st with ⟨stmts, buf, depth, delim⟩
  simp only at hty
  subst hty
  simp [splitStep]

/-- Witness for C8 on the concrete directive `DELIMITER //`. -/
theorem split_delimiter_directive_frame_witness :
    splitLoop 6 ⟨[], [], 0, [';']⟩ "DELIMITER //\nX".data
      = splitLoop 5 ⟨[], [], 0, "//".data⟩ "X".data := by
  have h := split_delimiter_directive_frame 5 ⟨[], [], 0, [';']⟩
    ⟨TokenType.TokenDelimiterCommand, "DELIMITER //\n".data, "//".data⟩
    "DELIMITER //\nX".data "X".data rfl (by decide) rfl
  simpa using h

/-- C2 counterexample: the stream of `'ab` (and of `SELECT 'ab`) ends inside
a quoted string; `Split` drops the partial quoted text `'ab` instead of
returning it as part of the final statement — for `'ab` no statement is
returned at all. -/
theorem split_unterminated_quote_dropped_cex :
    Split "'ab".data = [] ∧ Split "SELECT 'ab".data = ["SELECT ".data] := by
  constructor <;> decide

/-- C2 (amended): when the stream ends inside a quoted string, `Split` does
not fail, but the text accumulated for the quoted token (opening quote plus
partial literal) is dropped: the loop terminates emitting only the earlier
statements and the previously buffered text. -/
theorem split_unterminated_quote_drop (fuel : Nat) (st : SplitState) (q : Char)
    (body : List Char)
    (hd : st.currentDelim = [';'])
    (hq : q = '\'' ∨ q = '"')
    (he : (readQuotedString q body).2.2 = true) :
    splitLoop (fuel + 1) st (q :: body) =
      st.statements ++ (if st.buf.length > 0 then [st.buf] else []) := by
  simp only [splitLoop]
  rw [if_neg (by simp [hd])]
  rw [NextToken.eq_def]
  dsimp only
  rw [if_pos hq]
  rcases hr : readQuotedString q body with ⟨tok, rest, flag⟩
  rw [hr] at he
  simp only at he
  subst he
  dsimp only
  split_ifs <;> simp

/-- Witness for C2's amended statement: an unterminated literal after a
pending buffer flushes only the buffer. -/
theorem split_unterminated_quote_drop_witness :
    splitLoop 4 ⟨["X;".data], "Y".data, 0, [';']⟩ ('\'' :: "ab".data)
      = ["X;".data, "Y".data] := by
  have h := split_unterminated_quote_drop 3 ⟨["X;".data], "Y".data, 0, [';']⟩ '\'' "ab".data
    rfl (Or.inl rfl) (by decide)
  simpa using h

/-- C7 is a code bug: the DELIMITER keyword is recognized
case-insensitively, but the new delimiter word is computed with
`strings.TrimPrefix(fullCommand, "DELIMITER")`; for any spelling other than
uppercase `DELIMITER` the prefix is not removed and the directive word
wrongly retains the keyword text (here `delimiter $$` instead of `$$`),
while the uppercase spelling behaves as the spec states. -/
theorem processDelimiterCommand_lowercase_bug :
    (processDelimiterCommand "delimiter".data " $$\n".data).1.delimiterWord
        = "delimiter $$".data ∧
      (processDelimiterCommand "DELIMITER".data " $$\n".data).1.delimiterWord = "$$".data ∧
      NextToken "delimiter $$\nX".data =
        some (⟨TokenType.TokenDelimiterCommand, "delimiter $$\n".data, "delimiter $$".data⟩,
          ['X'], false) := by
  refine ⟨by decide, by decide, by decide⟩

theorem qsLoop_chunks (q : Char) (chunks : List (List Char)) :
    ∀ (acc rest : List Char),
      (∀ ch ∈ chunks, (∃ c, ch = [c] ∧ c ≠ q) ∨ ch = [q, q]) →
      rest.head? ≠ some q →
      qsLoop q acc (chunks.flatten ++ q :: rest) =
        (⟨TokenType.TokenText, acc ++ chunks.flatten ++ [q], []⟩, rest, false) := by
  induction chunks with
  | nil =>
    intro acc rest _ hh
    cases rest with
    | nil => simp [qsLoop]
    | cons next rest2 =>
      have hnq : ¬next = q := by
        intro e
        exact hh (by simp [e])
      simp only [List.flatten_nil, List.nil_append, List.append_nil]
      rw [qsLoop.eq_def]
      try dsimp only
      rw [if_pos rfl, if_neg hnq]
  | cons ch chunks ih =>
    intro acc rest hch hh
    rcases hch ch (List.mem_cons_self _ _) with ⟨c, rfl, hc⟩ | rfl
    · have step := ih (acc ++ [c]) rest (fun x hx => hch x (List.mem_cons_of_mem _ hx)) hh
      rw [List.flatten_cons]
      rw [show [c] ++ chunks.flatten ++ q :: rest = c :: (chunks.flatten ++ q :: rest) by simp]
      rw [qsLoop.eq_def]
      try dsimp only
      rw [if_neg hc, step]
      simp
    · have step := ih (acc ++ [q] ++ [q]) rest (fun x hx => hch x (List.mem_cons_of_mem _ hx)) hh
      rw [List.flatten_cons]
      rw [show [q, q] ++ chunks.flatten ++ q :: rest = q :: q :: (chunks.flatten ++ q :: rest)
        by simp]
      rw [qsLoop.eq_def]
      try dsimp only
      rw [if_pos rfl, if_pos rfl, step]
      simp

/-- C5: a semicolon between an opening quote and its matching closing quote
never terminates a statement: the whole literal (whose interior is any
sequence of non-quote characters and doubled escaped quotes) comes back as
a single text token spanning through the closing quote, and the concrete
scripts with a quoted semicolon and a doubled quote each split into one
statement. -/
theorem split_quoted_semicolon :
    (∀ (q : Char) (chunks : List (List Char)) (rest : List Char),
        (q = '\'' ∨ q = '"') →
        (∀ ch ∈ chunks, (∃ c, ch = [c] ∧ c ≠ q) ∨ ch = [q, q]) →
        rest.head? ≠ some q →
        NextToken (q :: (chunks.flatten ++ q :: rest)) =
          some (⟨TokenType.TokenText, q :: (chunks.flatten ++ [q]), []⟩, rest, false)) ∧
      Split "INSERT INTO t VALUES ('a;b');".data
        = ["INSERT INTO t VALUES ('a;b');".data] ∧
      Split "SELECT 'a''b;c';".data = ["SELECT 'a''b;c';".data] := by
  refine ⟨?_, by decide, by decide⟩
  intro q chunks rest hq hch hh
  rw [NextToken.eq_def]
  try dsimp only
  rw [if_pos hq]
  rw [readQuotedString, qsLoop_chunks q chunks [q] rest hch hh]
  simp

/-- Witness for C5's universally quantified part: the literal between the
quotes of `'a;b'` followed by `)`. -/
theorem split_quoted_semicolon_witness :
    NextToken ('\'' :: ([['a'], [';'], ['b']].flatten ++ '\'' :: [')'])) =
      some (⟨TokenType.TokenText, '\'' :: ([['a'], [';'], ['b']].flatten ++ ['\'']), []⟩,
        [')'], false) :=
  split_quoted_semicolon.1 '\'' [['a'], [';'], ['b']] [')'] (Or.inl rfl)
    (by
      intro ch hch
      simp only [List.mem_cons, List.not_mem_nil, or_false] at hch
      rcases hch with rfl | rfl | rfl
      · exact Or.inl ⟨'a', rfl, by decide⟩
      · exact Or.inl ⟨';', rfl, by decide⟩
      · exact Or.inl ⟨'b', rfl, by decide⟩)
    (by decide)

/-- C3: in raw-scan mode a matched `DELIMITER` spelling is honoured as a
directive only at a word boundary: if the character before the match is
neither `;` nor whitespace the scan just continues (first conjunct), and if
the character after the match is neither `;` nor whitespace the character
is pushed back and the scan continues (second conjunct) — in both cases the
matched characters pass through as ordinary content; the three concrete
scripts behave as the spec's examples state. -/
theorem split_custom_delimiter_word_boundary :
    (∀ (delim s : List Char) (r : Char) (rest : List Char),
        ¬delim.isSuffixOf (s ++ [r]) = true →
        "DELIMITER".data.isSuffixOf ((s ++ [r]).map Char.toUpper) = true →
        notAtWordStart (dropLastN 9 (s ++ [r])) = true →
        rudLoop delim s (r :: rest) = rudLoop delim (s ++ [r]) rest) ∧
      (∀ (delim s : List Char) (r r2 : Char) (rest2 : List Char),
        ¬delim.isSuffixOf (s ++ [r]) = true →
        "DELIMITER".data.isSuffixOf ((s ++ [r]).map Char.toUpper) = true →
        notAtWordStart (dropLastN 9 (s ++ [r])) = false →
        ¬r2 = ';' →
        isSpaceRune r2 = false →
        rudLoop delim s (r :: r2 :: rest2) = rudLoop delim (s ++ [r]) (r2 :: rest2)) ∧
      Split "DELIMITER //\nCALL proc()//\nDELIMITER ;".data = ["CALL proc()".data] ∧
      Split "DELIMITER //\nCALLDELIMITER proc()//\nDELIMITER ;".data
        = ["CALLDELIMITER proc()".data] ∧
      Split "DELIMITER //\nDELIMITER33 proc()//\nDELIMITER ;".data
        = ["DELIMITER33 proc()".data] := by
  refine ⟨?_, ?_, by decide, by decide, by decide⟩
  · intro delim s r rest h1 h2 h3
    rw [rudLoop.eq_def]
    try dsimp only
    rw [if_neg h1, if_pos h2, if_pos h3]
  · intro delim s r r2 rest2 h1 h2 h3 h4 h5
    rw [rudLoop.eq_def]
    try dsimp only
    rw [if_neg h1, if_pos h2, if_neg (by simp [h3])]
    try dsimp only
    rw [if_neg h4, if_pos (by simp [h5])]

/-- Witness for C3's boundary lemmas: the tail of `CALLDELIMITER` is not a
directive because the preceding character `L` is neither `;` nor space. -/
theorem split_custom_delimiter_word_boundary_witness :
    rudLoop "//".data "CALLDELIMITE".data ('R' :: " proc()".data)
      = rudLoop "//".data ("CALLDELIMITE".data ++ ['R']) " proc()".data :=
  split_custom_delimiter_word_boundary.1 "//".data "CALLDELIMITE".data 'R' " proc()".data
    (by decide) (by decide) (by decide)

theorem isSpace_not_word (c : Char) (h : isSpaceRune c = true) : isWordRune c = false := by
  simp only [isSpaceRune, Char.isWhitespace, Bool.or_eq_true, decide_eq_true_eq] at h
  rcases h with ((rfl | rfl) | rfl) | rfl <;> decide

theorem wordLoop_stops (acc input : List Char)
    (h : ∀ c, input.head? = some c → isWordRune c = false) :
    wordLoop acc input = (acc, input) := by
  cases input with
  | nil => simp [wordLoop]
  | cons r rest =>
    rw [wordLoop.eq_def]
    try dsimp only
    rw [if_neg (by simp [h r rfl])]

theorem asSkipWs_skips (ws : List Char) :
    ∀ (acc rest : List Char), (∀ c ∈ ws, isSpaceRune c = true) →
      (∀ c, rest.head? = some c → isSpaceRune c = false) →
      asSkipWs acc (ws ++ rest) = (acc ++ ws, rest) := by
  induction ws with
  | nil =>
    intro acc rest _ hr
    cases rest with
    | nil => simp [asSkipWs]
    | cons r rest2 =>
      rw [List.nil_append, asSkipWs.eq_def]
      try dsimp only
      rw [if_neg (by simp [hr r rfl])]
      simp
  | cons w ws ih =>
    intro acc rest hws hr
    rw [List.cons_append, asSkipWs.eq_def]
    try dsimp only
    rw [if_pos (hws w (List.mem_cons_self _ _))]
    have step := ih (acc ++ [w]) rest (fun c hc => hws c (List.mem_cons_of_mem _ hc)) hr
    simpa using step

theorem rurLoop_reads_tag (tag : List Char) :
    ∀ (acc rest : List Char), '$' ∉ tag →
      rurLoop '$' acc (tag ++ '$' :: rest) = (acc ++ tag, '$' :: rest, false) := by
  induction tag with
  | nil => intro acc rest _; simp [rurLoop]
  | cons t tag ih =>
    intro acc rest hnm
    rw [List.cons_append, rurLoop.eq_def]
    try dsimp only
    rw [if_neg (by intro e; subst e; exact hnm (List.mem_cons_self _ _))]
    have step := ih (acc ++ [t]) rest (fun hc => hnm (List.mem_cons_of_mem _ hc))
    simpa using step

theorem bdLoop_first (endRunes t rest : List Char)
    (hsuf : endRunes.isSuffixOf t = true)
    (hfirst : ∀ p, p <+: t → endRunes.isSuffixOf p = true → p = t) :
    ∀ (remaining acc : List Char), acc ++ remaining = t → remaining ≠ [] →
      bdLoop endRunes acc (remaining ++ rest) = (t, rest, false) := by
  intro remaining
  induction remaining with
  | nil => intro acc _ hne; exact absurd rfl hne
  | cons r rem ih =>
    intro acc hacc _
    cases rem with
    | nil =>
      rw [List.cons_append, List.nil_append, bdLoop.eq_def]
      try dsimp only
      have hcond : endRunes.length ≤ (acc ++ [r]).length ∧
          endRunes.isSuffixOf (acc ++ [r]) = true := by
        rw [hacc]
        refine ⟨?_, hsuf⟩
        exact (List.isSuffixOf_iff_suffix.mp hsuf).length_le
      rw [if_pos hcond, hacc]
    | cons r2 rem2 =>
      rw [List.cons_append, bdLoop.eq_def]
      try dsimp only
      have hpre : (acc ++ [r]) <+: t := ⟨r2 :: rem2, by rw [← hacc]; simp⟩
      have hno : ¬(endRunes.length ≤ (acc ++ [r]).length ∧
          endRunes.isSuffixOf (acc ++ [r]) = true) := by
        rintro ⟨_, hsa⟩
        have heq := hfirst (acc ++ [r]) hpre hsa
        have hlt : (acc ++ [r]).length < t.length := by
          rw [← hacc]
          simp
        rw [heq] at hlt
        omega
      rw [if_neg hno]
      exact ih (acc ++ [r]) (by rw [← hacc]; simp) (by simp)

/-- The opaque-body capture after the word `AS`: with whitespace `ws`, a
dollar-free tag, and `body` whose extension by the closing `$tag$` contains
that closing sequence only at its very end, the lexer returns one text
token spanning from `AS` through the closing `$tag$`, leaving `rest`. -/
theorem nextToken_as_dollar (ws tag body rest : List Char)
    (hws : ∀ c ∈ ws, isSpaceRune c = true)
    (htag : '$' ∉ tag)
    (hfirst : ∀ p, p <+: (body ++ '$' :: (tag ++ ['$'])) →
      ('$' :: (tag ++ ['$'])).isSuffixOf p = true → p = body ++ '$' :: (tag ++ ['$'])) :
    NextToken ('A' :: 'S' :: (ws ++ '$' :: (tag ++ '$' :: (body ++ '$' :: (tag ++ '$' :: rest)))))
      = some (⟨TokenType.TokenText,
          'A' :: 'S' :: (ws ++ '$' :: (tag ++ '$' :: (body ++ '$' :: (tag ++ ['$'])))), []⟩,
        rest, false) := by
  have hheadword : ∀ c, (ws ++ '$' :: (tag ++ '$' :: (body ++ '$' :: (tag ++ '$' :: rest)))).head?
      = some c → isWordRune c = false := by
    intro c hc
    cases ws with
    | nil =>
      simp only [List.nil_append, List.head?_cons, Option.some.injEq] at hc
      subst hc
      decide
    | cons w ws2 =>
      simp only [List.cons_append, List.head?_cons, Option.some.injEq] at hc
      subst hc
      exact isSpace_not_word w (hws w (List.mem_cons_self _ _))
  have hheadws : ∀ c, ('$' :: (tag ++ '$' :: (body ++ '$' :: (tag ++ '$' :: rest)))).head?
      = some c → isSpaceRune c = false := by
    intro c hc
    simp only [List.head?_cons, Option.some.injEq] at hc
    subst hc
    decide
  rw [NextToken.eq_def]
  try dsimp only
  rw [if_neg (by decide), if_neg (by decide), if_neg (by decide), if_neg (by decide),
    if_pos (by decide)]
  rw [readWord.eq_def]
  have hwl : wordLoop ['A'] ('S' :: (ws ++ '$' :: (tag ++ '$' :: (body ++ '$' ::
      (tag ++ '$' :: rest))))) = (['A', 'S'], ws ++ '$' :: (tag ++ '$' :: (body ++ '$' ::
      (tag ++ '$' :: rest)))) := by
    rw [wordLoop.eq_def]
    try dsimp only
    rw [if_pos (by decide)]
    exact wordLoop_stops ['A', 'S'] _ hheadword
  rw [hwl]
  try dsimp only
  rw [if_neg (by decide), if_neg (by decide), if_neg (by decide), if_pos (by decide)]
  rw [processAsBlockStart.eq_def]
  rw [asSkipWs_skips ws ['A', 'S'] _ hws hheadws]
  try dsimp only
  rw [if_pos rfl]
  rw [rurLoop_reads_tag tag [] _ htag]
  try dsimp only
  have hbd : bdLoop ('$' :: (tag ++ ['$'])) [] ((body ++ '$' :: (tag ++ ['$'])) ++ rest)
      = (body ++ '$' :: (tag ++ ['$']), rest, false) := by
    refine bdLoop_first ('$' :: (tag ++ ['$'])) (body ++ '$' :: (tag ++ ['$'])) rest ?_ hfirst
      (body ++ '$' :: (tag ++ ['$'])) [] rfl (by simp)
    exact List.isSuffixOf_iff_suffix.mpr (List.suffix_append body _)
  simp only [List.cons_append, List.append_assoc, List.singleton_append, List.nil_append] at hbd
  simp [readUntilBlockDelimiter, hbd]

theorem prefix_suffix_first (er t : List Char) (her : er ≠ [])
    (h : ∀ i < t.length - 1, er.isSuffixOf (t.take (i + 1)) = false) :
    ∀ p, p <+: t → er.isSuffixOf p = true → p = t := by
  intro p hp hs
  by_contra hne
  have hple : p.length ≤ t.length := hp.length_le
  have hlen : p.length < t.length := by
    rcases Nat.lt_or_ge p.length t.length with h1 | h1
    · exact h1
    · exact absurd (List.IsPrefix.eq_of_length hp (by omega)) hne
  have hpne : p ≠ [] := by
    intro e
    subst e
    rcases er with _ | ⟨a, as⟩
    · exact her rfl
    · simp at hs
  have hplen : 0 < p.length := List.length_pos.mpr hpne
  have htake : p = t.take p.length := List.prefix_iff_eq_take.mp hp
  have hcontr := h (p.length - 1) (by omega)
  rw [show p.length - 1 + 1 = p.length by omega, ← htake, hs] at hcontr
  simp at hcontr

/-- C4: after the word `AS`, a dollar-quote opener makes the lexer capture
the entire span through the first subsequent closing `$tag$` as one opaque
text token — the body is arbitrary (quotes, comments, semicolons and
BEGIN/END inside it are never recognized), and the concrete dollar-quoted
function body splits as a single statement terminated by the `;` after
`LANGUAGE plpgsql`. -/
theorem split_dollar_quoted_opaque_body :
    (∀ (ws tag body rest : List Char),
        (∀ c ∈ ws, isSpaceRune c = true) →
        '$' ∉ tag →
        (∀ p, p <+: (body ++ '$' :: (tag ++ ['$'])) →
          ('$' :: (tag ++ ['$'])).isSuffixOf p = true → p = body ++ '$' :: (tag ++ ['$'])) →
        NextToken
            ('A' :: 'S' :: (ws ++ '$' :: (tag ++ '$' :: (body ++ '$' :: (tag ++ '$' :: rest)))))
          = some (⟨TokenType.TokenText,
              'A' :: 'S' :: (ws ++ '$' :: (tag ++ '$' :: (body ++ '$' :: (tag ++ ['$'])))), []⟩,
            rest, false)) ∧
      Split
          "CREATE FUNCTION f() RETURNS void AS $$ BEGIN UPDATE t SET a = 1; END; $$ LANGUAGE plpgsql;".data
        = ["CREATE FUNCTION f() RETURNS void AS $$ BEGIN UPDATE t SET a = 1; END; $$ LANGUAGE plpgsql;".data] :=
  ⟨nextToken_as_dollar, by decide⟩

/-- Witness for C4: `AS $$ x; $$;` captures the whole `AS $$ x; $$` span
in one token, leaving the terminator `;`. -/
theorem split_dollar_quoted_opaque_body_witness :
    NextToken
        ('A' :: 'S' :: ([' '] ++ '$' :: ([] ++ '$' :: (" x; ".data ++ '$' :: ([] ++ '$' :: ";".data)))))
      = some (⟨TokenType.TokenText,
          'A' :: 'S' :: ([' '] ++ '$' :: ([] ++ '$' :: (" x; ".data ++ '$' :: ([] ++ ['$'])))), []⟩,
        ";".data, false) :=
  split_dollar_quoted_opaque_body.1 [' '] [] " x; ".data ";".data
    (by decide) (by decide)
    (prefix_suffix_first ('$' :: ([] ++ ['$'])) (" x; ".data ++ '$' :: ([] ++ ['$']))
      (by decide) (by decide))

/-! ## The annotation block splitter -/

theorem lastLine_no_newline (s : List Char) (h : '\n' ∉ s) : lastLine s = s := by
  rw [lastLine]
  rw [List.takeWhile_eq_self_iff.mpr]
  · exact List.reverse_reverse s
  · intro x hx
    simp only [decide_eq_true_eq]
    intro e
    subst e
    exact h (List.mem_reverse.mp hx)

theorem lastLine_append_newline (b text : List Char) (h : '\n' ∉ text) :
    lastLine (b ++ '\n' :: text) = text := by
  rw [lastLine, List.reverse_append, List.reverse_cons, List.append_assoc,
    List.singleton_append]
  rw [List.takeWhile_append_of_pos]
  · rw [List.takeWhile_cons_of_neg (by simp)]
    simp
  · intro a ha
    simp only [decide_eq_true_eq]
    intro e
    subst e
    exact h (List.mem_reverse.mp ha)

theorem isEndMarkerLine_nil (pre : List Char) : isEndMarkerLine pre [] = false := rfl

theorem sbdLoop_blocks (pre : List Char) :
    ∀ (lines : List (List Char)) (buf : List Char) (isFirst inBlock : Bool)
      (stmts : List (List Char)) (blocks : List Bool),
      (∀ l ∈ lines, '\n' ∉ l) →
      blocks = stmts.map (fun s => isEndMarkerLine pre (lastLine s)) →
      (isFirst = true → buf = []) →
      isEndMarkerLine pre (lastLine buf) = false →
      (sbdLoop pre buf isFirst inBlock stmts blocks lines).2 =
        (sbdLoop pre buf isFirst inBlock stmts blocks lines).1.map
          (fun s => isEndMarkerLine pre (lastLine s)) := by
  intro lines
  induction lines with
  | nil =>
    intro buf isFirst inBlock stmts blocks _ hinv _ hbuf
    simp only [sbdLoop]
    split_ifs with hc
    · simp [hinv, hbuf]
    · simp [hinv]
  | cons text restLines ih =>
    intro buf isFirst inBlock stmts blocks hl hinv hfirst hbuf
    have htext : '\n' ∉ text := hl text (List.mem_cons_self _ _)
    have hrest : ∀ l ∈ restLines, '\n' ∉ l := fun l hm => hl l (List.mem_cons_of_mem _ hm)
    have hlltext : lastLine text = text := lastLine_no_newline text htext
    have hlastjoin : ∀ b : List Char, lastLine (b ++ ['\n'] ++ text) = text := by
      intro b
      rw [List.append_assoc, List.singleton_append]
      exact lastLine_append_newline b text htext
    simp only [sbdLoop]
    by_cases hbegin : (sbdCmd pre text = "StatementBegin".data ∨
        sbdCmd pre text = "statementBegin".data)
    · rw [if_pos hbegin]
      have hnotend : isEndMarkerLine pre (lastLine text) = false := by
        rw [hlltext]
        simp only [isEndMarkerLine]
        rcases hbegin with h | h <;> rw [h] <;> decide
      by_cases htrim : trimSpace buf ≠ []
      · rw [if_pos htrim]
        refine ih text false true (stmts ++ [buf]) (blocks ++ [false]) hrest ?_ (by simp) hnotend
        rw [hinv, List.map_append]
        simp [hbuf]
      · rw [if_neg htrim]
        exact ih text false true stmts blocks hrest hinv (by simp) hnotend
    · rw [if_neg hbegin]
      by_cases hend : (sbdCmd pre text = "StatementEnd".data ∨
          sbdCmd pre text = "statementEnd".data)
      · rw [if_pos hend]
        refine ih [] true false
          (stmts ++ [(if ¬isFirst then buf ++ ['\n'] else buf) ++ text]) (blocks ++ [true])
          hrest ?_ (fun _ => rfl) (isEndMarkerLine_nil pre)
        rw [hinv, List.map_append]
        have hlast : lastLine ((if ¬isFirst then buf ++ ['\n'] else buf) ++ text) = text := by
          cases isFirst with
          | true =>
            rw [if_neg (by simp), hfirst rfl]
            simpa using hlltext
          | false =>
            rw [if_pos (by simp)]
            exact hlastjoin buf
        simp only [List.map_cons, List.map_nil, hlast]
        simp [isEndMarkerLine, hend]
      · rw [if_neg hend]
        refine ih ((if isFirst then buf else buf ++ ['\n']) ++ text) false inBlock stmts blocks
          hrest hinv (by simp) ?_
        have hlast : lastLine ((if isFirst then buf else buf ++ ['\n']) ++ text) = text := by
          cases isFirst with
          | true =>
            rw [if_pos rfl, hfirst rfl]
            simpa using hlltext
          | false =>
            rw [if_neg (by simp)]
            exact hlastjoin buf
        rw [hlast]
        simp only [isEndMarkerLine]
        simpa using hend

/-- C9: a segment returned by `SplitByDelimiter` carries
`isAtomicBlock = true` exactly when its last line is a recognized
end-marker line — precisely the segments flushed by an end-marker, which
append that marker line last; segments flushed by a begin-marker or by the
end-of-input flush end in a non-marker (or begin-marker) line and carry
`false`. -/
theorem splitByDelimiter_atomic_flags (lines : List (List Char)) (pre : List Char)
    (hl : ∀ l ∈ lines, '\n' ∉ l) :
    (SplitByDelimiter lines pre).2 =
      (SplitByDelimiter lines pre).1.map (fun s => isEndMarkerLine pre (lastLine s)) :=
  sbdLoop_blocks pre lines [] true false [] [] hl rfl (fun _ => rfl) (isEndMarkerLine_nil pre)

/-- Witness for C9 on a concrete goose-annotated script. -/
theorem splitByDelimiter_atomic_flags_witness :
    (SplitByDelimiter ["SELECT 1;".data, "-- +goose StatementBegin".data, "CREATE f;".data,
          "-- +goose StatementEnd".data, "SELECT 2;".data] "goose".data).2 =
      (SplitByDelimiter ["SELECT 1;".data, "-- +goose StatementBegin".data, "CREATE f;".data,
          "-- +goose StatementEnd".data, "SELECT 2;".data] "goose".data).1.map
        (fun s => isEndMarkerLine "goose".data (lastLine s)) :=
  splitByDelimiter_atomic_flags _ "goose".data (by decide)

theorem sbdLoop_length (pre : List Char) :
    ∀ (lines : List (List Char)) (buf : List Char) (isFirst inBlock : Bool)
      (stmts : List (List Char)) (blocks : List Bool),
      stmts.length = blocks.length →
      (sbdLoop pre buf isFirst inBlock stmts blocks lines).1.length =
        (sbdLoop pre buf isFirst inBlock stmts blocks lines).2.length := by
  intro lines
  induction lines with
  | nil =>
    intro buf isFirst inBlock stmts blocks h
    simp only [sbdLoop]
    split_ifs <;> simp [h]
  | cons text restLines ih =>
    intro buf isFirst inBlock stmts blocks h
    simp only [sbdLoop]
    split_ifs <;> apply ih <;> simp [h]

/-- C10: for every list of input lines and every marker prefix (including
the empty prefix), `SplitByDelimiter` returns exactly as many atomic-block
flags as segment texts. -/
theorem splitByDelimiter_length_eq (lines : List (List Char)) (pre : List Char) :
    (SplitByDelimiter lines pre).1.length = (SplitByDelimiter lines pre).2.length :=
  sbdLoop_length pre lines [] true false [] [] rfl

end GoFlyway
